import Mathlib

/-!
Verification of the weighted threshold secret-sharing configuration
(`WeightedConfig` from `crates/aptos-dkg/src/pvss/weighted/weighted_config.rs`).

Embedding conventions:
* `usize` values are `Nat` (no overflow is relevant: only additions of weights).
* Rust panics (failed `assert_lt!`, out-of-bounds `Vec` indexing, `unwrap()` of
  `None`, `gen_range` over an empty range) are modelled by an `Option` result
  whose `none` is the fatal branch.
* The externally supplied randomness source is a stream `Nat → Nat`; the k-th
  call of `gen_range(0, len)` yields `rng k % len`, so every sequence of
  in-range draws is realizable and every stream draws in range.
* The two `while` loops are modelled with explicit fuel; the top-level wrappers
  pass enough fuel that the fuel-out branch is unreachable on the loops' actual
  iteration counts (proved below for validly constructed configurations).
-/

namespace WeightedDkg

/-- Modelled from the spec: `Player` (external to this file, from `crate::pvss`)
is an id-wrapper type, constructible from a raw index, with equality by id. -/
structure Player where
  id : Nat
deriving DecidableEq, Repr

/-- Modelled from the spec: the error of the external unweighted
`ThresholdConfig` constructor (it validates `threshold ≤ total`). -/
inductive TcError where
  | thresholdExceedsTotal
deriving DecidableEq, Repr

/-- Modelled from the spec: the external unweighted threshold configuration, a
validated `(t, n)` pair. -/
structure ThresholdConfig where
  t : Nat
  n : Nat
deriving DecidableEq, Repr

/-- Modelled from the spec: `ThresholdConfig::new(threshold, total)` validates
`threshold ≤ total` and otherwise returns the pair unchanged. -/
def ThresholdConfig.new (t n : Nat) : Except TcError ThresholdConfig :=
  if t ≤ n then .ok ⟨t, n⟩ else .error .thresholdExceedsTotal

/-- The construction-time error taxonomy of `WeightedConfig::new` (the source
uses `anyhow!` strings; each constructor below corresponds to one distinct
message, and `propagated` carries the unweighted constructor's error through
unchanged). -/
inductive WcError where
  | invalidThreshold
  | emptyWeightVector
  | zeroPlayerWeight (idx : Nat)
  | propagated (e : TcError)
deriving DecidableEq, Repr

/-- The weighted secret-sharing configuration (struct `WeightedConfig`). -/
structure WeightedConfig where
  tc : ThresholdConfig
  num_players : Nat
  weight : List Nat
  starting_index : List Nat
  max_player_weight : Nat
deriving DecidableEq, Repr

/-- Index of the first zero entry of a weight vector, as found by the `for`
loop over `weights.iter().enumerate()` in `WeightedConfig::new`. -/
def firstZeroIndex : List Nat → Option Nat
  | [] => none
  | w :: ws => if w = 0 then some 0 else (firstZeroIndex ws).map (· + 1)

/-- The loop `for w in weights.iter().take(n - 1) { starting_index.push(last + w) }`:
given the running last prefix sum, emit the remaining starting indices. -/
def startingIndexTail (last : Nat) : List Nat → List Nat
  | [] => []
  | w :: ws => (last + w) :: startingIndexTail (last + w) ws

/-- The `starting_index` vector built by `WeightedConfig::new`: a `0` followed
by the running sums over the first `n - 1` weights. -/
def startingIndexOf (weights : List Nat) : List Nat :=
  0 :: startingIndexTail 0 (weights.take (weights.length - 1))

/-- `WeightedConfig::new(threshold_weight, weights)`, checks in source order. -/
def WeightedConfig.new (threshold_weight : Nat) (weights : List Nat) :
    Except WcError WeightedConfig :=
  if threshold_weight = 0 then .error .invalidThreshold
  else if weights.isEmpty then .error .emptyWeightVector
  else
    let max_player_weight := weights.foldl Nat.max 0
    match firstZeroIndex weights with
    | some idx => .error (.zeroPlayerWeight idx)
    | none =>
      let n := weights.length
      let W := weights.sum
      let starting_index := startingIndexOf weights
      match ThresholdConfig.new threshold_weight W with
      | .error e => .error (.propagated e)
      | .ok tc => .ok ⟨tc, n, weights, starting_index, max_player_weight⟩

def WeightedConfig.get_max_player_weight (wc : WeightedConfig) : Nat :=
  wc.max_player_weight

def WeightedConfig.get_threshold_weight (wc : WeightedConfig) : Nat :=
  wc.tc.t

def WeightedConfig.get_total_weight (wc : WeightedConfig) : Nat :=
  wc.tc.n

/-- `self.weight[player.id]`; `none` is the index-out-of-bounds panic. -/
def WeightedConfig.get_player_weight (wc : WeightedConfig) (player : Player) :
    Option Nat :=
  wc.weight[player.id]?

/-- `self.starting_index[player.id]`; `none` is the index-out-of-bounds panic. -/
def WeightedConfig.get_player_starting_index (wc : WeightedConfig) (player : Player) :
    Option Nat :=
  wc.starting_index[player.id]?

/-- Modelled from the spec: `SecretSharingConfig::get_player(i)` wraps a raw
index into a `Player`. -/
def WeightedConfig.get_player (_wc : WeightedConfig) (i : Nat) : Player :=
  ⟨i⟩

/-- `WeightedConfig::get_share_index(i, j)`. The outer `Option` is the fatal
branch (`assert_lt!(i, self.tc.n)` failure or `self.weight[i]` /
`self.starting_index[i]` index panic); the inner `Option` is the function's own
`Option<usize>` return value. -/
def WeightedConfig.get_share_index (wc : WeightedConfig) (i j : Nat) :
    Option (Option Nat) :=
  if i < wc.tc.n then
    match wc.weight[i]? with
    | none => none
    | some wi =>
      if j < wi then
        match wc.starting_index[i]? with
        | none => none
        | some si => some (some (si + j))
      else some none
  else none

/-- `WeightedConfig::get_virtual_player(player, j)`: asserts
`j < self.weight[player.id]` then unwraps `get_share_index(player.id, j)`.
`none` is any of the fatal branches. -/
def WeightedConfig.get_virtual_player (wc : WeightedConfig) (player : Player)
    (j : Nat) : Option Player :=
  match wc.weight[player.id]? with
  | none => none
  | some w =>
    if j < w then
      match wc.get_share_index player.id j with
      | some (some id) => some ⟨id⟩
      | _ => none
    else none

/-- Collecting an iterator of possibly-panicking items: the first panic aborts. -/
def collectPlayers : List (Option Player) → Option (List Player)
  | [] => some []
  | none :: _ => none
  | some p :: rest => (collectPlayers rest).map (p :: ·)

/-- `WeightedConfig::get_all_virtual_players(player)`:
`(0..w).map(|i| get_virtual_player(player, i)).collect()` where
`w = get_player_weight(player)`. -/
def WeightedConfig.get_all_virtual_players (wc : WeightedConfig) (player : Player) :
    Option (List Player) :=
  match wc.weight[player.id]? with
  | none => none
  | some w => collectPlayers ((List.range w).map (wc.get_virtual_player player))

/-- The comparator of `sort_by(|a, b| a.1.cmp(&b.1))`: ascending by weight. -/
def weightLE (a b : Nat × Nat) : Prop :=
  a.2 ≤ b.2

instance : DecidableRel weightLE :=
  fun a b => inferInstanceAs (Decidable (a.2 ≤ b.2))

instance : IsTotal (Nat × Nat) weightLE :=
  ⟨fun a b => Nat.le_total a.2 b.2⟩

instance : IsTrans (Nat × Nat) weightLE :=
  ⟨fun _ _ _ => Nat.le_trans⟩

/-- `WeightedConfig::sort_players_by_weight`: enumerate `(i, weight[i])` and
stably sort ascending by weight (Rust's `sort_by` is stable; a stable sort's
output is unique, so the stable `insertionSort` is an exact model). -/
def WeightedConfig.sort_players_by_weight (wc : WeightedConfig) :
    List (Nat × Nat) :=
  List.insertionSort weightLE wc.weight.enum

/-- The `while current_weight < self.tc.t` loop of
`WeightedConfig::pop_eligible_subset`: pop `(player_idx, weight)` from the tail
of the candidate vector, append the player, accumulate the weight. `none` is
the `pop().unwrap()` panic on an empty vector (or exhausted fuel, unreachable
with the fuel supplied by the wrapper). -/
def popLoop (t : Nat) :
    Nat → List (Nat × Nat) → List Player → Nat → Option (List Player)
  | 0, _, picked, cw => if cw < t then none else some picked
  | fuel' + 1, cands, picked, cw =>
    if cw < t then
      match cands.getLast? with
      | none => none
      | some pw =>
        popLoop t fuel' cands.dropLast (picked ++ [⟨pw.1⟩]) (cw + pw.2)
    else some picked

/-- Front-consuming form of `popLoop`: popping from the tail of `cands` is
consuming the head of `cands.reverse` (proved equivalent below); the proofs
about the greedy accumulation are carried out on this form. -/
def takeLoop (t : Nat) :
    Nat → List (Nat × Nat) → List Player → Nat → Option (List Player)
  | 0, _, picked, cw => if cw < t then none else some picked
  | fuel' + 1, order, picked, cw =>
    if cw < t then
      match order with
      | [] => none
      | pw :: rest => takeLoop t fuel' rest (picked ++ [⟨pw.1⟩]) (cw + pw.2)
    else some picked

/-- `WeightedConfig::pop_eligible_subset(player_and_weights)`. The loop runs at
most `cands.length + 1` times before it either stops or hits the empty pop, so
this fuel makes the model exact. -/
def WeightedConfig.pop_eligible_subset (wc : WeightedConfig)
    (cands : List (Nat × Nat)) : Option (List Player) :=
  popLoop wc.tc.t (cands.length + 1) cands [] 0

/-- `WeightedConfig::get_best_case_eligible_subset_of_players`: sort ascending
by weight, then pop from the tail (heaviest first). The randomness source is
accepted but never consumed. -/
def WeightedConfig.get_best_case_eligible_subset_of_players
    (wc : WeightedConfig) (_rng : Nat → Nat) : Option (List Player) :=
  wc.pop_eligible_subset wc.sort_players_by_weight

/-- `WeightedConfig::get_worst_case_eligible_subset_of_players`: sort ascending
by weight, reverse, then pop from the tail (lightest first). The randomness
source is accepted but never consumed. -/
def WeightedConfig.get_worst_case_eligible_subset_of_players
    (wc : WeightedConfig) (_rng : Nat → Nat) : Option (List Player) :=
  wc.pop_eligible_subset wc.sort_players_by_weight.reverse

/-- `player_and_weights.swap(idx, len - 1); player_and_weights.pop();` -/
def swapWithLastAndPop (l : List (Nat × Nat)) (idx : Nat) : List (Nat × Nat) :=
  ((l.set idx (l.getD (l.length - 1) (0, 0))).set (l.length - 1)
    (l.getD idx (0, 0))).dropLast

/-- The `while current_weight < self.tc.t` loop of
`get_random_eligible_subset_of_players`: draw `idx = gen_range(0, len)` (the
`k`-th draw of the stream, reduced mod `len`; `none` on `len = 0`, which is the
`gen_range` panic on an empty range), pick `player_and_weights[idx]`, and
remove it by swap-with-last-and-pop only when `len > 1`. -/
def randLoop (t : Nat) (rng : Nat → Nat) :
    Nat → List (Nat × Nat) → List Player → Nat → Nat → Option (List Player)
  | 0, _, picked, cw, _ => if cw < t then none else some picked
  | fuel' + 1, cands, picked, cw, k =>
    if cw < t then
      if cands.length = 0 then none
      else
        let idx := rng k % cands.length
        let pw := cands.getD idx (0, 0)
        let cands' := if 1 < cands.length then swapWithLastAndPop cands idx
          else cands
        randLoop t rng fuel' cands' (picked ++ [⟨pw.1⟩]) (cw + pw.2) (k + 1)
    else some picked

/-- `SecretSharingConfig::get_random_eligible_subset_of_players` for
`WeightedConfig`: candidates are `weight.iter().enumerate()`. For validly
constructed configurations the loop runs at most `weight.length` times, so the
supplied fuel makes the model exact. -/
def WeightedConfig.get_random_eligible_subset_of_players (wc : WeightedConfig)
    (rng : Nat → Nat) : Option (List Player) :=
  randLoop wc.tc.t rng (wc.weight.length + 1) wc.weight.enum [] 0 0

def WeightedConfig.get_total_num_players (wc : WeightedConfig) : Nat :=
  wc.num_players

def WeightedConfig.get_total_num_shares (wc : WeightedConfig) : Nat :=
  wc.tc.n

/-- Total weight of a list of picked players, looked up through the
configuration's weight vector. -/
def playersWeight (wc : WeightedConfig) (l : List Player) : Nat :=
  (l.map (fun p => wc.weight.getD p.id 0)).sum

/-- The running example from the source's own doc comment: weights `[2, 4, 3]`
with threshold weight `5`. -/
def wcEx : WeightedConfig :=
  ⟨⟨5, 9⟩, 3, [2, 4, 3], [0, 2, 6], 4⟩

end WeightedDkg

namespace WeightedDkg

example : WeightedConfig.new 5 [2, 4, 3] =
    Except.ok ⟨⟨5, 9⟩, 3, [2, 4, 3], [0, 2, 6], 4⟩ := rfl

example : WeightedConfig.new 0 [2, 4, 3] = Except.error WcError.invalidThreshold := rfl

example : WeightedConfig.new 1 [] = Except.error WcError.emptyWeightVector := rfl

example : WeightedConfig.new 1 [2, 0, 3] = Except.error (WcError.zeroPlayerWeight 1) := rfl

example : WeightedConfig.new 10 [2, 4, 3] =
    Except.error (WcError.propagated TcError.thresholdExceedsTotal) := rfl

end WeightedDkg

namespace WeightedDkg

lemma new_ex : WeightedConfig.new 5 [2, 4, 3] = Except.ok wcEx := rfl

/-! ### Prefix-sum characterization of the `starting_index` construction -/

lemma startingIndexTail_eq (l : List Nat) (last : Nat) :
    startingIndexTail last l =
      (List.range l.length).map (fun i => last + (l.take (i + 1)).sum) := by
  induction l generalizing last with
  | nil => rfl
  | cons w ws ih =>
    simp only [startingIndexTail, List.length_cons, List.range_succ_eq_map,
      List.map_cons, List.map_map]
    rw [ih (last + w)]
    simp only [List.cons.injEq, Function.comp, Nat.succ_eq_add_one,
      List.take_succ_cons, List.sum_cons, List.take_zero, List.sum_nil,
      List.map_inj_left, List.mem_range]
    exact ⟨by omega, fun a _ => by omega⟩

lemma startingIndexTail_length (l : List Nat) (last : Nat) :
    (startingIndexTail last l).length = l.length := by
  rw [startingIndexTail_eq]
  simp

lemma startingIndexTail_getElem (l : List Nat) (last i : Nat) (hi : i < l.length) :
    (startingIndexTail last l)[i]? = some (last + (l.take (i + 1)).sum) := by
  rw [startingIndexTail_eq, List.getElem?_map, List.getElem?_range hi]
  rfl

lemma startingIndexOf_length (ws : List Nat) (h : ws ≠ []) :
    (startingIndexOf ws).length = ws.length := by
  have hlen : 1 ≤ ws.length := List.length_pos.mpr h
  simp only [startingIndexOf, List.length_cons, startingIndexTail_length,
    List.length_take]
  omega

lemma startingIndexOf_getElem (ws : List Nat) (i : Nat) (hi : i < ws.length) :
    (startingIndexOf ws)[i]? = some ((ws.take i).sum) := by
  cases i with
  | zero => simp [startingIndexOf]
  | succ i' =>
    have h1 : i' < (ws.take (ws.length - 1)).length := by
      rw [List.length_take]; omega
    simp only [startingIndexOf, List.getElem?_cons_succ]
    rw [startingIndexTail_getElem _ _ _ h1, List.take_take]
    have h2 : (i' + 1) ⊓ (ws.length - 1) = i' + 1 := by omega
    rw [h2, Nat.zero_add]

/-! ### The first-zero search of the validation loop -/

lemma firstZeroIndex_eq_none {ws : List Nat} :
    firstZeroIndex ws = none ↔ ∀ w ∈ ws, w ≠ 0 := by
  induction ws with
  | nil => simp [firstZeroIndex]
  | cons w ws ih =>
    by_cases hw : w = 0
    · simp [firstZeroIndex, hw]
    · simp [firstZeroIndex, hw, ih]

lemma firstZeroIndex_eq_some {ws : List Nat} {i : Nat}
    (h : firstZeroIndex ws = some i) :
    ws[i]? = some 0 ∧ ∀ j, j < i → ws[j]? ≠ some 0 := by
  induction ws generalizing i with
  | nil => simp [firstZeroIndex] at h
  | cons w ws ih =>
    by_cases hw : w = 0
    · simp only [firstZeroIndex, if_pos hw, Option.some.injEq] at h
      subst h
      subst hw
      exact ⟨by simp, fun j hj => absurd hj (Nat.not_lt_zero j)⟩
    · simp only [firstZeroIndex, if_neg hw, Option.map_eq_some'] at h
      obtain ⟨i', hi', rfl⟩ := h
      obtain ⟨hz, hlt⟩ := ih hi'
      refine ⟨?_, fun j hj => ?_⟩
      · rw [List.getElem?_cons_succ]
        exact hz
      · cases j with
        | zero => simpa using hw
        | succ j' =>
          rw [List.getElem?_cons_succ]
          exact hlt j' (by omega)

/-! ### The `iter().max()` fold -/

lemma foldl_max_le_init (ws : List Nat) (a : Nat) : a ≤ ws.foldl Nat.max a := by
  induction ws generalizing a with
  | nil => exact Nat.le_refl a
  | cons x xs ih => exact Nat.le_trans (Nat.le_max_left a x) (ih (Nat.max a x))

lemma le_foldl_max (ws : List Nat) (w : Nat) :
    w ∈ ws → ∀ a, w ≤ ws.foldl Nat.max a := by
  induction ws with
  | nil => intro h; cases h
  | cons x xs ih =>
    intro h a
    rcases List.mem_cons.mp h with rfl | hmem
    · exact Nat.le_trans (Nat.le_max_right a w) (foldl_max_le_init xs _)
    · exact ih hmem _

lemma nat_max_cases (a b : Nat) : Nat.max a b = a ∨ Nat.max a b = b := by
  by_cases hab : a ≤ b
  · exact Or.inr (Nat.le_antisymm (Nat.max_le.mpr ⟨hab, Nat.le_refl b⟩)
      (Nat.le_max_right a b))
  · have hba : b ≤ a := Nat.le_of_not_le hab
    exact Or.inl (Nat.le_antisymm (Nat.max_le.mpr ⟨Nat.le_refl a, hba⟩)
      (Nat.le_max_left a b))

lemma foldl_max_mem (ws : List Nat) (a : Nat) :
    ws.foldl Nat.max a = a ∨ ws.foldl Nat.max a ∈ ws := by
  induction ws generalizing a with
  | nil => exact Or.inl rfl
  | cons x xs ih =>
    rw [List.foldl_cons]
    rcases ih (Nat.max a x) with h | h
    · rw [h]
      rcases nat_max_cases a x with hm | hm
      · exact Or.inl hm
      · rw [hm]
        exact Or.inr (List.mem_cons_self x xs)
    · exact Or.inr (List.mem_cons_of_mem x h)

/-! ### Inversion of a successful construction -/

lemma new_ok {t : Nat} {ws : List Nat} {wc : WeightedConfig}
    (h : WeightedConfig.new t ws = Except.ok wc) :
    wc = ⟨⟨t, ws.sum⟩, ws.length, ws, startingIndexOf ws, ws.foldl Nat.max 0⟩ ∧
      1 ≤ t ∧ ws ≠ [] ∧ (∀ w ∈ ws, 1 ≤ w) ∧ t ≤ ws.sum := by
  unfold WeightedConfig.new at h
  by_cases h0 : t = 0
  · rw [if_pos h0] at h; cases h
  · rw [if_neg h0] at h
    by_cases hemp : ws.isEmpty
    · rw [if_pos hemp] at h; cases h
    · rw [if_neg hemp] at h
      cases hz : firstZeroIndex ws with
      | some i => simp only [hz] at h; cases h
      | none =>
        simp only [hz] at h
        unfold ThresholdConfig.new at h
        by_cases hle : t ≤ ws.sum
        · rw [if_pos hle] at h
          simp only [Except.ok.injEq] at h
          refine ⟨h.symm, by omega, ?_, ?_, hle⟩
          · intro hnil
            rw [hnil] at hemp
            exact hemp rfl
          · intro w hw
            have := firstZeroIndex_eq_none.mp hz w hw
            omega
        · rw [if_neg hle] at h; cases h

lemma new_ok_eq {t : Nat} {ws : List Nat} {wc : WeightedConfig}
    (h : WeightedConfig.new t ws = Except.ok wc) :
    wc.tc.t = t ∧ wc.tc.n = ws.sum ∧ wc.num_players = ws.length ∧
      wc.weight = ws ∧ wc.starting_index = startingIndexOf ws ∧
      wc.max_player_weight = ws.foldl Nat.max 0 := by
  obtain ⟨rfl, -⟩ := new_ok h
  exact ⟨rfl, rfl, rfl, rfl, rfl, rfl⟩

end WeightedDkg

namespace WeightedDkg

/-! ### The unique block containing a share index -/

lemma prefix_block_unique (ws : List Nat) :
    ∀ k, k < ws.sum →
      ∃! i, ∃ wi, ws[i]? = some wi ∧ (ws.take i).sum ≤ k ∧
        k < (ws.take i).sum + wi := by
  induction ws with
  | nil => intro k hk; simp at hk
  | cons w ws ih =>
    intro k hk
    by_cases hkw : k < w
    · refine ⟨0, ⟨w, by simp, Nat.zero_le k, by simpa using hkw⟩, ?_⟩
      rintro i' ⟨wi, hgi, hle, hlt⟩
      cases i' with
      | zero => rfl
      | succ j =>
        exfalso
        rw [List.take_succ_cons, List.sum_cons] at hle
        omega
    · have hk' : k - w < ws.sum := by
        rw [List.sum_cons] at hk
        omega
      obtain ⟨j, ⟨wj, hgj, hlej, hltj⟩, huniq⟩ := ih (k - w) hk'
      refine ⟨j + 1, ⟨wj, ?_, ?_, ?_⟩, ?_⟩
      · rw [List.getElem?_cons_succ]
        exact hgj
      · rw [List.take_succ_cons, List.sum_cons]
        omega
      · rw [List.take_succ_cons, List.sum_cons]
        omega
      · rintro i' ⟨wi, hgi, hle, hlt⟩
        cases i' with
        | zero =>
          exfalso
          simp only [List.getElem?_cons_zero, Option.some.injEq] at hgi
          simp only [List.take_zero, List.sum_nil, Nat.zero_add] at hlt
          omega
        | succ j' =>
          have hj' : j' = j := by
            apply huniq
            rw [List.getElem?_cons_succ] at hgi
            rw [List.take_succ_cons, List.sum_cons] at hle hlt
            exact ⟨wi, hgi, by omega, by omega⟩
          omega

/-- If `i` is a zero entry and everything before it is non-zero, the validation
loop reports exactly `i`. -/
lemma firstZeroIndex_spec {ws : List Nat} {i : Nat} (h0 : ws[i]? = some 0)
    (hmin : ∀ j, j < i → ws[j]? ≠ some 0) : firstZeroIndex ws = some i := by
  induction ws generalizing i with
  | nil => simp at h0
  | cons w ws ih =>
    cases i with
    | zero =>
      simp only [List.getElem?_cons_zero, Option.some.injEq] at h0
      simp [firstZeroIndex, h0]
    | succ i' =>
      have hw : w ≠ 0 := by
        have := hmin 0 (Nat.succ_pos i')
        simpa using this
      rw [List.getElem?_cons_succ] at h0
      have hmin' : ∀ j, j < i' → ws[j]? ≠ some 0 := by
        intro j hj
        have := hmin (j + 1) (by omega)
        rwa [List.getElem?_cons_succ] at this
      simp [firstZeroIndex, hw, ih h0 hmin']

/-- Claim C1: for every `WeightedConfig` successfully returned by
`new(threshold_weight, weights)`, `starting_index` is the exclusive prefix sum
of the weights (`starting_index[0] = 0`, length `n`, and
`starting_index[i] = weights[0] + ⋯ + weights[i-1]`), the `n` blocks
`[starting_index[i], starting_index[i] + weights[i])` are contiguous, disjoint,
ordered and exactly partition `[0, W)` where `W = sum(weights)` (every share
index `k < W` lies in exactly one player's block), and `max_player_weight` is
the maximum of the weights. -/
theorem C1_starting_index_prefix_sum_partition {t : Nat} {ws : List Nat}
    {wc : WeightedConfig} (h : WeightedConfig.new t ws = Except.ok wc) :
    wc.starting_index.length = ws.length ∧
    wc.starting_index[0]? = some 0 ∧
    (∀ i, i < ws.length → wc.starting_index[i]? = some ((ws.take i).sum)) ∧
    (wc.max_player_weight ∈ ws ∧ ∀ w ∈ ws, w ≤ wc.max_player_weight) ∧
    (∀ k, k < ws.sum → ∃! i : Nat, ∃ si wi, wc.starting_index[i]? = some si ∧
        wc.weight[i]? = some wi ∧ si ≤ k ∧ k < si + wi) := by
  obtain ⟨rfl, ht, hnil, hpos, hle⟩ := new_ok h
  refine ⟨startingIndexOf_length ws hnil, ?_, ?_, ⟨?_, ?_⟩, ?_⟩
  · have h0 := startingIndexOf_getElem ws 0 (List.length_pos.mpr hnil)
    simpa using h0
  · intro i hi
    exact startingIndexOf_getElem ws i hi
  · rcases foldl_max_mem ws 0 with h0 | h0
    · exfalso
      obtain ⟨w0, ws0, rfl⟩ := List.exists_cons_of_ne_nil hnil
      have h1 : w0 ≤ (w0 :: ws0).foldl Nat.max 0 :=
        le_foldl_max _ w0 (List.mem_cons_self _ _) 0
      have h2 : 1 ≤ w0 := hpos w0 (List.mem_cons_self _ _)
      omega
    · exact h0
  · intro w hw
    exact le_foldl_max ws w hw 0
  · intro k hk
    obtain ⟨i, ⟨wi, hgi, hlei, hlti⟩, huniq⟩ := prefix_block_unique ws k hk
    have hilen : i < ws.length := (List.getElem?_eq_some.mp hgi).1
    refine ⟨i, ⟨(ws.take i).sum, wi, startingIndexOf_getElem ws i hilen, hgi,
      hlei, hlti⟩, ?_⟩
    rintro i' ⟨si', wi', hsi', hgi', hle', hlt'⟩
    have hilen' : i' < ws.length := (List.getElem?_eq_some.mp hgi').1
    rw [startingIndexOf_getElem ws i' hilen'] at hsi'
    have hsi'eq : si' = (ws.take i').sum := by
      simpa using hsi'.symm
    subst hsi'eq
    exact huniq i' ⟨wi', hgi', hle', hlt'⟩

/-- Concrete instance of C1 at `new(5, [2, 4, 3])`. -/
theorem C1_starting_index_prefix_sum_partition_witness :
    wcEx.starting_index[0]? = some 0 :=
  (C1_starting_index_prefix_sum_partition new_ex).2.1

/-- Claim C2: `new(threshold_weight, weights)` checks its errors in order:
`threshold_weight = 0` gives `InvalidThreshold`; otherwise an empty weight
vector gives `EmptyWeightVector`; otherwise a zero weight gives
`ZeroPlayerWeight` at the first offending index; otherwise an error of the
unweighted `ThresholdConfig` constructor on `(threshold_weight, sum weights)`
is propagated unchanged; and with none of these, `new` returns `Ok`. -/
theorem C2_new_error_order (t : Nat) (ws : List Nat) :
    (t = 0 → WeightedConfig.new t ws = Except.error WcError.invalidThreshold) ∧
    (t ≠ 0 → ws = [] →
      WeightedConfig.new t ws = Except.error WcError.emptyWeightVector) ∧
    (∀ i, t ≠ 0 → ws[i]? = some 0 → (∀ j, j < i → ws[j]? ≠ some 0) →
      WeightedConfig.new t ws = Except.error (WcError.zeroPlayerWeight i)) ∧
    (∀ e, t ≠ 0 → ws ≠ [] → (∀ w ∈ ws, w ≠ 0) →
      ThresholdConfig.new t ws.sum = Except.error e →
      WeightedConfig.new t ws = Except.error (WcError.propagated e)) ∧
    (∀ tc, t ≠ 0 → ws ≠ [] → (∀ w ∈ ws, w ≠ 0) →
      ThresholdConfig.new t ws.sum = Except.ok tc →
      ∃ wc, WeightedConfig.new t ws = Except.ok wc) := by
  refine ⟨?_, ?_, ?_, ?_, ?_⟩
  · intro h0
    unfold WeightedConfig.new
    rw [if_pos h0]
  · intro ht hnil
    subst hnil
    unfold WeightedConfig.new
    rw [if_neg ht]
    rfl
  · intro i ht h0 hmin
    have hz := firstZeroIndex_spec h0 hmin
    have hnil : ws ≠ [] := by
      intro hc
      subst hc
      simp at h0
    unfold WeightedConfig.new
    rw [if_neg ht, if_neg (by simpa [List.isEmpty_iff] using hnil)]
    simp only [hz]
  · intro e ht hnil hnz htc
    have hz : firstZeroIndex ws = none := firstZeroIndex_eq_none.mpr hnz
    unfold WeightedConfig.new
    rw [if_neg ht, if_neg (by simpa [List.isEmpty_iff] using hnil)]
    simp only [hz, htc]
  · intro tc ht hnil hnz htc
    have hz : firstZeroIndex ws = none := firstZeroIndex_eq_none.mpr hnz
    refine ⟨⟨tc, ws.length, ws, startingIndexOf ws, ws.foldl Nat.max 0⟩, ?_⟩
    unfold WeightedConfig.new
    rw [if_neg ht, if_neg (by simpa [List.isEmpty_iff] using hnil)]
    simp only [hz, htc]

/-- Concrete instance of C2: `new(1, [2, 0, 3])` reports the zero weight at
index 1 (the first offending index). -/
theorem C2_new_error_order_witness :
    WeightedConfig.new 1 [2, 0, 3] = Except.error (WcError.zeroPlayerWeight 1) :=
  (C2_new_error_order 1 [2, 0, 3]).2.2.1 1 (by decide) (by decide)
    (by
      intro j hj
      have hj0 : j = 0 := Nat.lt_one_iff.mp hj
      subst hj0
      simp)

end WeightedDkg

namespace WeightedDkg

/-! ### Reduction lemmas for the per-player accessors -/

lemma length_le_sum {ws : List Nat} (h : ∀ w ∈ ws, 1 ≤ w) :
    ws.length ≤ ws.sum := by
  induction ws with
  | nil => simp
  | cons w ws ih =>
    simp only [List.length_cons, List.sum_cons]
    have h1 := h w (List.mem_cons_self _ _)
    have h2 := ih (fun x hx => h x (List.mem_cons_of_mem _ hx))
    omega

lemma get_share_index_eq {t : Nat} {ws : List Nat} {wc : WeightedConfig}
    (h : WeightedConfig.new t ws = Except.ok wc) (i j : Nat)
    (hi : i < ws.length) :
    wc.get_share_index i j =
      if j < ws[i] then some (some ((ws.take i).sum + j)) else some none := by
  obtain ⟨htc, hn, hnp, hw, hsi, hmax⟩ := new_ok_eq h
  obtain ⟨-, ht, hnil, hpos, hle⟩ := new_ok h
  have hsum : i < ws.sum := Nat.lt_of_lt_of_le hi (length_le_sum hpos)
  unfold WeightedConfig.get_share_index
  rw [hn, hw, hsi, if_pos hsum, List.getElem?_eq_getElem hi,
    startingIndexOf_getElem ws i hi]

lemma get_share_index_oob {t : Nat} {ws : List Nat} {wc : WeightedConfig}
    (h : WeightedConfig.new t ws = Except.ok wc) (i j : Nat)
    (hi : ws.length ≤ i) :
    wc.get_share_index i j = none := by
  obtain ⟨htc, hn, hnp, hw, hsi, hmax⟩ := new_ok_eq h
  unfold WeightedConfig.get_share_index
  rw [hn, hw]
  by_cases hs : i < ws.sum
  · rw [if_pos hs, List.getElem?_eq_none hi]
  · rw [if_neg hs]

lemma get_virtual_player_eq {t : Nat} {ws : List Nat} {wc : WeightedConfig}
    (h : WeightedConfig.new t ws = Except.ok wc) (p : Player) (j : Nat)
    (hp : p.id < ws.length) :
    wc.get_virtual_player p j =
      if j < ws[p.id] then some ⟨(ws.take p.id).sum + j⟩ else none := by
  obtain ⟨htc, hn, hnp, hw, hsi, hmax⟩ := new_ok_eq h
  have h1 : wc.weight[p.id]? = some ws[p.id] := by
    rw [hw]
    exact List.getElem?_eq_getElem hp
  have h2 := get_share_index_eq h p.id j hp
  by_cases hj : j < ws[p.id]
  · rw [if_pos hj]
    simp [WeightedConfig.get_virtual_player, h1, hj, h2]
  · rw [if_neg hj]
    simp [WeightedConfig.get_virtual_player, h1, hj]

lemma get_virtual_player_oob {t : Nat} {ws : List Nat} {wc : WeightedConfig}
    (h : WeightedConfig.new t ws = Except.ok wc) (p : Player) (j : Nat)
    (hp : ws.length ≤ p.id) :
    wc.get_virtual_player p j = none := by
  obtain ⟨htc, hn, hnp, hw, hsi, hmax⟩ := new_ok_eq h
  have h1 : wc.weight[p.id]? = none := by
    rw [hw]
    exact List.getElem?_eq_none hp
  simp [WeightedConfig.get_virtual_player, h1]

lemma collectPlayers_map (f : Nat → Option Player) (g : Nat → Player) :
    ∀ l : List Nat, (∀ x ∈ l, f x = some (g x)) →
      collectPlayers (l.map f) = some (l.map g) := by
  intro l
  induction l with
  | nil => intro _; rfl
  | cons x xs ih =>
    intro hall
    rw [List.map_cons, hall x (List.mem_cons_self _ _)]
    simp [collectPlayers, ih (fun y hy => hall y (List.mem_cons_of_mem _ hy))]

lemma get_all_virtual_players_eq {t : Nat} {ws : List Nat} {wc : WeightedConfig}
    (h : WeightedConfig.new t ws = Except.ok wc) (p : Player)
    (hp : p.id < ws.length) :
    wc.get_all_virtual_players p =
      some ((List.range ws[p.id]).map (fun j => ⟨(ws.take p.id).sum + j⟩)) := by
  obtain ⟨htc, hn, hnp, hw, hsi, hmax⟩ := new_ok_eq h
  have h1 : wc.weight[p.id]? = some ws[p.id] := by
    rw [hw]
    exact List.getElem?_eq_getElem hp
  have h2 : ∀ x ∈ List.range ws[p.id],
      wc.get_virtual_player p x = some ⟨(ws.take p.id).sum + x⟩ := by
    intro x hx
    rw [get_virtual_player_eq h p x hp, if_pos (List.mem_range.mp hx)]
  simp only [WeightedConfig.get_all_virtual_players, h1]
  exact collectPlayers_map _ _ _ h2

lemma get_all_virtual_players_oob {t : Nat} {ws : List Nat} {wc : WeightedConfig}
    (h : WeightedConfig.new t ws = Except.ok wc) (p : Player)
    (hp : ws.length ≤ p.id) :
    wc.get_all_virtual_players p = none := by
  obtain ⟨htc, hn, hnp, hw, hsi, hmax⟩ := new_ok_eq h
  have h1 : wc.weight[p.id]? = none := by
    rw [hw]
    exact List.getElem?_eq_none hp
  simp [WeightedConfig.get_all_virtual_players, h1]

/-- Claim C3: for every successfully constructed `WeightedConfig` and every
real-player index `i < num_players`, `get_share_index(i, j)` returns
`Some(starting_index[i] + j)` when `j < weight[i]` and `None` when
`j ≥ weight[i]`; the `None` case is the function's normal boundary value
(`some none` in the embedding), not the fatal branch (`none`). -/
theorem C3_get_share_index_behavior {t : Nat} {ws : List Nat}
    {wc : WeightedConfig} (h : WeightedConfig.new t ws = Except.ok wc)
    (i j : Nat) (hi : i < wc.num_players) :
    ∃ si wi, wc.starting_index[i]? = some si ∧ wc.weight[i]? = some wi ∧
      (j < wi → wc.get_share_index i j = some (some (si + j))) ∧
      (wi ≤ j → wc.get_share_index i j = some none) := by
  obtain ⟨htc, hn, hnp, hw, hsi, hmax⟩ := new_ok_eq h
  rw [hnp] at hi
  refine ⟨(ws.take i).sum, ws[i], ?_, ?_, ?_, ?_⟩
  · rw [hsi]
    exact startingIndexOf_getElem ws i hi
  · rw [hw]
    exact List.getElem?_eq_getElem hi
  · intro hj
    rw [get_share_index_eq h i j hi, if_pos hj]
  · intro hj
    rw [get_share_index_eq h i j hi, if_neg (by omega)]

/-- Concrete instance of C3 at `new(5, [2, 4, 3])`, player 1, offset 3. -/
theorem C3_get_share_index_behavior_witness :
    ∃ si wi, wcEx.starting_index[1]? = some si ∧ wcEx.weight[1]? = some wi ∧
      (3 < wi → wcEx.get_share_index 1 3 = some (some (si + 3))) ∧
      (wi ≤ 3 → wcEx.get_share_index 1 3 = some none) :=
  C3_get_share_index_behavior new_ex 1 3
    (by decide)

/-- Claim C4: for every successfully constructed `WeightedConfig` and every
player `p` with `p.id < num_players`, `get_virtual_player(p, j)` returns the
player with id `starting_index[p.id] + j` for each `j < weight[p.id]`, and
`get_all_virtual_players(p)` returns exactly the `weight[p.id]` players whose
ids are, in order, the contiguous range starting at `starting_index[p.id]`. -/
theorem C4_virtual_players_contiguous {t : Nat} {ws : List Nat}
    {wc : WeightedConfig} (h : WeightedConfig.new t ws = Except.ok wc)
    (p : Player) (hp : p.id < wc.num_players) :
    ∃ si wi, wc.starting_index[p.id]? = some si ∧ wc.weight[p.id]? = some wi ∧
      (∀ j, j < wi → wc.get_virtual_player p j = some ⟨si + j⟩) ∧
      wc.get_all_virtual_players p =
        some ((List.range wi).map (fun j => ⟨si + j⟩)) := by
  obtain ⟨htc, hn, hnp, hw, hsi, hmax⟩ := new_ok_eq h
  rw [hnp] at hp
  refine ⟨(ws.take p.id).sum, ws[p.id], ?_, ?_, ?_, ?_⟩
  · rw [hsi]
    exact startingIndexOf_getElem ws p.id hp
  · rw [hw]
    exact List.getElem?_eq_getElem hp
  · intro j hj
    rw [get_virtual_player_eq h p j hp, if_pos hj]
  · exact get_all_virtual_players_eq h p hp

/-- Concrete instance of C4 at `new(5, [2, 4, 3])`, player 2 (weight 3,
starting index 6). -/
theorem C4_virtual_players_contiguous_witness :
    ∃ si wi, wcEx.starting_index[2]? = some si ∧ wcEx.weight[2]? = some wi ∧
      (∀ j, j < wi → wcEx.get_virtual_player ⟨2⟩ j = some ⟨si + j⟩) ∧
      wcEx.get_all_virtual_players ⟨2⟩ =
        some ((List.range wi).map (fun j => ⟨si + j⟩)) :=
  C4_virtual_players_contiguous new_ex
    ⟨2⟩ (by decide)

/-- Claim C6: on a successfully constructed `WeightedConfig`, every per-player
accessor reaches the fatal branch (`none` in the embedding: a failed assertion
or an index panic, never a recoverable error value) when given a player id
outside `[0, num_players)`, and `get_virtual_player` also does so for an offset
`j ≥ weight[player]`; under the preconditions the fatal branch is unreachable
(the result is `isSome`). -/
theorem C6_fatal_on_invalid_arguments {t : Nat} {ws : List Nat}
    {wc : WeightedConfig} (h : WeightedConfig.new t ws = Except.ok wc) :
    (∀ pid : Nat, wc.num_players ≤ pid →
      wc.get_player_weight ⟨pid⟩ = none ∧
      wc.get_player_starting_index ⟨pid⟩ = none ∧
      (∀ j, wc.get_virtual_player ⟨pid⟩ j = none) ∧
      wc.get_all_virtual_players ⟨pid⟩ = none ∧
      (∀ j, wc.get_share_index pid j = none)) ∧
    (∀ pid j : Nat, pid < wc.num_players →
      (∀ wi, wc.weight[pid]? = some wi → wi ≤ j) →
      wc.get_virtual_player ⟨pid⟩ j = none) ∧
    (∀ pid : Nat, pid < wc.num_players →
      (wc.get_player_weight ⟨pid⟩).isSome ∧
      (wc.get_player_starting_index ⟨pid⟩).isSome ∧
      (wc.get_all_virtual_players ⟨pid⟩).isSome ∧
      (∀ j, (wc.get_share_index pid j).isSome) ∧
      (∀ j wi, wc.weight[pid]? = some wi → j < wi →
        (wc.get_virtual_player ⟨pid⟩ j).isSome)) := by
  obtain ⟨htc, hn, hnp, hw, hsi, hmax⟩ := new_ok_eq h
  obtain ⟨-, ht, hnil, hpos, hle⟩ := new_ok h
  refine ⟨?_, ?_, ?_⟩
  · intro pid hpid
    rw [hnp] at hpid
    refine ⟨?_, ?_, ?_, ?_, ?_⟩
    · unfold WeightedConfig.get_player_weight
      rw [hw]
      exact List.getElem?_eq_none hpid
    · unfold WeightedConfig.get_player_starting_index
      rw [hsi]
      exact List.getElem?_eq_none (by rw [startingIndexOf_length ws hnil]; exact hpid)
    · intro j
      exact get_virtual_player_oob h ⟨pid⟩ j hpid
    · exact get_all_virtual_players_oob h ⟨pid⟩ hpid
    · intro j
      exact get_share_index_oob h pid j hpid
  · intro pid j hpid hwi
    rw [hnp] at hpid
    have hj : ws[pid] ≤ j := by
      apply hwi
      rw [hw]
      exact List.getElem?_eq_getElem hpid
    rw [get_virtual_player_eq h ⟨pid⟩ j hpid,
      if_neg (show ¬ j < ws[pid] by omega)]
  · intro pid hpid
    rw [hnp] at hpid
    refine ⟨?_, ?_, ?_, ?_, ?_⟩
    · unfold WeightedConfig.get_player_weight
      rw [hw, List.getElem?_eq_getElem hpid]
      rfl
    · unfold WeightedConfig.get_player_starting_index
      rw [hsi, startingIndexOf_getElem ws pid hpid]
      rfl
    · rw [get_all_virtual_players_eq h ⟨pid⟩ hpid]
      rfl
    · intro j
      rw [get_share_index_eq h pid j hpid]
      by_cases hj : j < ws[pid]
      · rw [if_pos hj]
        rfl
      · rw [if_neg hj]
        rfl
    · intro j wi hwi hj
      rw [hw, List.getElem?_eq_getElem hpid] at hwi
      have hwieq : wi = ws[pid] := by
        simpa using hwi.symm
      subst hwieq
      rw [get_virtual_player_eq h ⟨pid⟩ j hpid, if_pos hj]
      rfl

/-- Concrete instance of C6 at `new(5, [2, 4, 3])`: player id 7 is out of
range, so `get_player_weight` hits the fatal branch. -/
theorem C6_fatal_on_invalid_arguments_witness :
    wcEx.get_player_weight ⟨7⟩ = none :=
  ((C6_fatal_on_invalid_arguments new_ex).1 7 (by decide)).1

end WeightedDkg

namespace WeightedDkg

/-! ### The shared greedy accumulation loop -/

lemma popLoop_eq_takeLoop (t : Nat) :
    ∀ fuel cands picked cw,
      popLoop t fuel cands picked cw = takeLoop t fuel cands.reverse picked cw := by
  intro fuel
  induction fuel with
  | zero =>
    intro cands picked cw
    unfold popLoop takeLoop
    rfl
  | succ fuel' ih =>
    intro cands picked cw
    unfold popLoop takeLoop
    by_cases hcw : cw < t
    · rw [if_pos hcw, if_pos hcw]
      rcases List.eq_nil_or_concat cands with rfl | ⟨init, a, rfl⟩
      · rfl
      · rw [List.concat_eq_append, List.getLast?_concat, List.dropLast_concat,
          List.reverse_append]
        simp only [List.reverse_cons, List.reverse_nil, List.nil_append,
          List.singleton_append]
        exact ih init _ _
    · rw [if_neg hcw, if_neg hcw]

lemma takeLoop_sound (t : Nat) :
    ∀ fuel order picked cw out,
      takeLoop t fuel order picked cw = some out →
      ∃ m, m ≤ order.length ∧
        out = picked ++ (order.take m).map (fun pw => Player.mk pw.1) ∧
        t ≤ cw + ((order.take m).map Prod.snd).sum ∧
        (¬ cw < t → m = 0) ∧
        (cw < t → 1 ≤ m ∧ cw + ((order.take (m - 1)).map Prod.snd).sum < t) := by
  intro fuel
  induction fuel with
  | zero =>
    intro order picked cw out h
    unfold takeLoop at h
    by_cases hcw : cw < t
    · rw [if_pos hcw] at h
      cases h
    · rw [if_neg hcw] at h
      injection h with h
      subst h
      refine ⟨0, Nat.zero_le _, by simp, by simpa using Nat.le_of_not_lt hcw,
        fun _ => rfl, fun hc => absurd hc hcw⟩
  | succ fuel' ih =>
    intro order picked cw out h
    unfold takeLoop at h
    by_cases hcw : cw < t
    · rw [if_pos hcw] at h
      cases order with
      | nil => cases h
      | cons pw rest =>
        obtain ⟨m', hm'le, hout, hsum, hzero, hbnd⟩ := ih rest _ _ out h
        refine ⟨m' + 1, by simpa using hm'le, ?_, ?_, fun hc => absurd hcw hc, ?_⟩
        · rw [hout, List.take_succ_cons, List.map_cons]
          simp
        · rw [List.take_succ_cons, List.map_cons, List.sum_cons]
          omega
        · intro _
          refine ⟨by omega, ?_⟩
          simp only [Nat.add_sub_cancel]
          by_cases hcw' : cw + pw.2 < t
          · obtain ⟨hm1, hlt⟩ := hbnd hcw'
            have htake : (pw :: rest).take m' = pw :: rest.take (m' - 1) := by
              have hm'eq : m' = m' - 1 + 1 := by omega
              rw [hm'eq, List.take_succ_cons]
              rw [← hm'eq]
            rw [htake, List.map_cons, List.sum_cons]
            omega
          · have hm0 : m' = 0 := hzero hcw'
            subst hm0
            simpa using hcw
    · rw [if_neg hcw] at h
      injection h with h
      subst h
      refine ⟨0, Nat.zero_le _, by simp, by simpa using Nat.le_of_not_lt hcw,
        fun _ => rfl, fun hc => absurd hc hcw⟩

lemma takeLoop_total (t : Nat) :
    ∀ fuel order picked cw,
      t ≤ cw + (order.map Prod.snd).sum →
      order.length < fuel →
      ∃ out, takeLoop t fuel order picked cw = some out := by
  intro fuel
  induction fuel with
  | zero =>
    intro order picked cw _ h2
    omega
  | succ fuel' ih =>
    intro order picked cw h1 h2
    by_cases hcw : cw < t
    · cases order with
      | nil =>
        exfalso
        simp only [List.map_nil, List.sum_nil, Nat.add_zero] at h1
        omega
      | cons pw rest =>
        simp only [List.map_cons, List.sum_cons] at h1
        simp only [List.length_cons] at h2
        obtain ⟨out, hout⟩ := ih rest (picked ++ [⟨pw.1⟩]) (cw + pw.2)
          (by omega) (by omega)
        refine ⟨out, ?_⟩
        unfold takeLoop
        rw [if_pos hcw]
        exact hout
    · refine ⟨picked, ?_⟩
      unfold takeLoop
      rw [if_neg hcw]

lemma pop_eligible_subset_eq (wc : WeightedConfig) (cands : List (Nat × Nat)) :
    wc.pop_eligible_subset cands =
      takeLoop wc.tc.t (cands.length + 1) cands.reverse [] 0 := by
  unfold WeightedConfig.pop_eligible_subset
  exact popLoop_eq_takeLoop _ _ _ _ _

/-! ### Sum and ordering helpers -/

lemma forall2_sum_le {l₁ l₂ : List Nat} (h : List.Forall₂ (· ≤ ·) l₁ l₂) :
    l₁.sum ≤ l₂.sum := by
  induction h with
  | nil => exact Nat.le_refl 0
  | cons hab _ ih =>
    simp only [List.sum_cons]
    omega

lemma sum_take_mono (u : List Nat) {k k' : Nat} (h : k ≤ k') :
    (u.take k).sum ≤ (u.take k').sum := by
  have h1 : u.take k = (u.take k').take k := by
    rw [List.take_take]
    congr 1
    omega
  rw [h1]
  conv_rhs => rw [← List.take_append_drop k (u.take k')]
  rw [List.sum_append]
  exact Nat.le_add_right _ _

lemma sum_take_reverse_ge {u : List Nat} (hu : u.Sorted (· ≤ ·)) (k : Nat) :
    (u.take k).sum ≤ (u.reverse.take k).sum := by
  by_cases hk : k ≤ u.length
  · have h1 : u.reverse.take k = (u.drop (u.length - k)).reverse := by
      have h2 := List.reverse_take (l := u.reverse) (n := k)
      rw [List.reverse_reverse, List.length_reverse] at h2
      rw [← List.reverse_reverse (u.reverse.take k), h2]
    rw [h1, List.sum_reverse]
    have hlen1 : (u.take k).length = k := by
      rw [List.length_take]
      omega
    have hlen2 : (u.drop (u.length - k)).length = k := by
      rw [List.length_drop]
      omega
    have hf : List.Forall₂ (· ≤ ·) (u.take k) (u.drop (u.length - k)) := by
      rw [List.forall₂_iff_get]
      refine ⟨by omega, ?_⟩
      intro i h₁ h₂
      simp only [List.get_eq_getElem, List.getElem_take, List.getElem_drop]
      rcases Nat.lt_or_ge i (u.length - k + i) with hlt | hge
      · have hiu : i < u.length := by omega
        have hju : u.length - k + i < u.length := by omega
        exact hu.rel_get_of_lt (a := ⟨i, hiu⟩) (b := ⟨u.length - k + i, hju⟩) hlt
      · have hik : u.length - k + i = i := by omega
        simp only [hik]
        exact Nat.le_refl _
    exact forall2_sum_le hf
  · rw [List.take_of_length_le (by omega),
      List.take_of_length_le (by rw [List.length_reverse]; omega),
      List.sum_reverse]

lemma dropLast_take {α : Type} (l : List α) {m : Nat} (hm : m ≤ l.length) :
    (l.take m).dropLast = l.take (m - 1) := by
  rw [List.dropLast_eq_take, List.length_take, List.take_take]
  congr 1
  omega

/-! ### Pairing of candidate entries with the weight vector -/

lemma enum_pairing (ws : List Nat) : ∀ pw ∈ ws.enum, ws.getD pw.1 0 = pw.2 := by
  intro pw hpw
  have h1 := List.mem_enum_iff_getElem?.mp hpw
  rw [List.getD_eq_getElem?_getD, h1]
  rfl

lemma enum_fst_lt (ws : List Nat) : ∀ pw ∈ ws.enum, pw.1 < ws.length := by
  intro pw hpw
  have h1 := List.mem_enum_iff_getElem?.mp hpw
  have h2 := List.getElem?_eq_some.mp h1
  exact h2.1

lemma sort_mem_iff (wc : WeightedConfig) (pw : Nat × Nat) :
    pw ∈ wc.sort_players_by_weight ↔ pw ∈ wc.weight.enum :=
  (List.perm_insertionSort weightLE _).mem_iff

lemma sort_sndSum (wc : WeightedConfig) :
    (wc.sort_players_by_weight.map Prod.snd).sum = wc.weight.sum := by
  unfold WeightedConfig.sort_players_by_weight
  have hp := (List.perm_insertionSort weightLE wc.weight.enum).map Prod.snd
  rw [hp.sum_eq, List.enum_map_snd]

lemma sort_length (wc : WeightedConfig) :
    wc.sort_players_by_weight.length = wc.weight.length := by
  unfold WeightedConfig.sort_players_by_weight
  rw [(List.perm_insertionSort weightLE wc.weight.enum).length_eq,
    List.enum_length]

lemma sort_sorted (wc : WeightedConfig) :
    (wc.sort_players_by_weight.map Prod.snd).Sorted (· ≤ ·) := by
  unfold WeightedConfig.sort_players_by_weight
  rw [List.Sorted, List.pairwise_map]
  exact List.sorted_insertionSort weightLE wc.weight.enum

lemma weights_map_mk (wc : WeightedConfig) :
    ∀ l : List (Nat × Nat), (∀ pw ∈ l, wc.weight.getD pw.1 0 = pw.2) →
      (l.map (fun pw => Player.mk pw.1)).map (fun p => wc.weight.getD p.id 0) =
        l.map Prod.snd := by
  intro l
  induction l with
  | nil => intro _; rfl
  | cons pw rest ih =>
    intro hpair
    simp only [List.map_cons]
    rw [ih (fun x hx => hpair x (List.mem_cons_of_mem _ hx))]
    congr 1
    exact hpair pw (List.mem_cons_self _ _)

lemma playersWeight_eq (wc : WeightedConfig) (l : List (Nat × Nat))
    (hpair : ∀ pw ∈ l, wc.weight.getD pw.1 0 = pw.2) :
    playersWeight wc (l.map (fun pw => Player.mk pw.1)) =
      (l.map Prod.snd).sum := by
  unfold playersWeight
  rw [weights_map_mk wc l hpair]

end WeightedDkg

namespace WeightedDkg

/-! ### Swap-with-last-and-pop -/

lemma dropLast_set_last (m : List (Nat × Nat)) (v : Nat × Nat) :
    (m.set (m.length - 1) v).dropLast = m.dropLast := by
  rcases List.eq_nil_or_concat m with rfl | ⟨init, a, rfl⟩
  · rfl
  · rw [List.concat_eq_append]
    have hlen : (init ++ [a]).length - 1 = init.length := by simp
    rw [hlen, List.set_append, if_neg (Nat.lt_irrefl _), Nat.sub_self]
    show (init ++ [v]).dropLast = (init ++ [a]).dropLast
    rw [List.dropLast_concat, List.dropLast_concat]

lemma swapWithLastAndPop_eq (l : List (Nat × Nat)) (idx : Nat) :
    swapWithLastAndPop l idx =
      (l.set idx (l.getD (l.length - 1) (0, 0))).dropLast := by
  unfold swapWithLastAndPop
  have h := dropLast_set_last (l.set idx (l.getD (l.length - 1) (0, 0)))
    (l.getD idx (0, 0))
  rw [List.length_set] at h
  exact h

lemma perm_cons_eraseIdx {α : Type} (d : List α) (i : Nat) (hi : i < d.length) :
    d.Perm (d[i] :: d.eraseIdx i) := by
  conv_lhs => rw [← List.take_append_drop i d, List.drop_eq_getElem_cons hi]
  rw [List.eraseIdx_eq_take_drop_succ]
  exact List.perm_middle

lemma swapWithLastAndPop_perm (l : List (Nat × Nat)) (idx : Nat)
    (h : idx < l.length) :
    (swapWithLastAndPop l idx).Perm (l.eraseIdx idx) := by
  rw [swapWithLastAndPop_eq]
  rcases List.eq_nil_or_concat l with rfl | ⟨init, a, rfl⟩
  · simp at h
  · rw [List.concat_eq_append] at h ⊢
    have hlen : (init ++ [a]).length - 1 = init.length := by simp
    have hz : (init ++ [a]).getD ((init ++ [a]).length - 1) (0, 0) = a := by
      rw [hlen, List.getD_eq_getElem?_getD, List.getElem?_concat_length]
      rfl
    rw [hz]
    rcases Nat.lt_or_ge idx init.length with hidx | hidx
    · rw [List.set_append, if_pos hidx, List.dropLast_concat,
        List.eraseIdx_eq_take_drop_succ,
        List.take_append_of_le_length (by omega),
        List.drop_append_of_le_length (by omega),
        List.set_eq_take_append_cons_drop, if_pos hidx]
      exact List.Perm.append_left _ ((List.perm_append_singleton a _).symm)
    · have hidx' : idx = init.length := by
        rw [List.length_append, List.length_cons, List.length_nil] at h
        omega
      subst hidx'
      rw [List.set_append, if_neg (Nat.lt_irrefl _), Nat.sub_self]
      have hset : [a].set 0 a = [a] := rfl
      rw [hset, List.dropLast_concat, List.eraseIdx_eq_take_drop_succ,
        List.take_left, List.drop_eq_nil_of_le (by simp)]
      rw [List.append_nil]

lemma swapRemove_length (l : List (Nat × Nat)) (idx : Nat) (h : idx < l.length) :
    (swapWithLastAndPop l idx).length = l.length - 1 := by
  rw [(swapWithLastAndPop_perm l idx h).length_eq, List.length_eraseIdx,
    if_pos h]

lemma swapRemove_subset (l : List (Nat × Nat)) (idx : Nat) (h : idx < l.length) :
    ∀ pw ∈ swapWithLastAndPop l idx, pw ∈ l := by
  intro pw hpw
  have h1 := ((swapWithLastAndPop_perm l idx h).mem_iff).mp hpw
  exact (List.eraseIdx_sublist l idx).subset h1

lemma swapRemove_nodup_fst (l : List (Nat × Nat)) (idx : Nat)
    (h : idx < l.length) (hn : (l.map Prod.fst).Nodup) :
    ((swapWithLastAndPop l idx).map Prod.fst).Nodup := by
  have hp := (swapWithLastAndPop_perm l idx h).map Prod.fst
  rw [hp.nodup_iff]
  exact List.Pairwise.sublist ((List.eraseIdx_sublist l idx).map Prod.fst) hn

lemma swapRemove_sndSum (l : List (Nat × Nat)) (idx : Nat) (h : idx < l.length) :
    ((swapWithLastAndPop l idx).map Prod.snd).sum + (l.getD idx (0, 0)).2 =
      (l.map Prod.snd).sum := by
  have hp := (swapWithLastAndPop_perm l idx h).map Prod.snd
  rw [hp.sum_eq]
  have hdecomp := (perm_cons_eraseIdx l idx h).map Prod.snd
  rw [hdecomp.sum_eq, List.map_cons, List.sum_cons,
    List.getD_eq_getElem _ _ h]
  omega

lemma swapRemove_fst_not_mem (l : List (Nat × Nat)) (idx : Nat)
    (h : idx < l.length) (hn : (l.map Prod.fst).Nodup) :
    (l.getD idx (0, 0)).1 ∉ (swapWithLastAndPop l idx).map Prod.fst := by
  intro hmem
  have hp := (swapWithLastAndPop_perm l idx h).map Prod.fst
  have hmem' := hp.mem_iff.mp hmem
  have hdecomp := (perm_cons_eraseIdx l idx h).map Prod.fst
  have hn2 := hdecomp.nodup_iff.mp hn
  rw [List.map_cons] at hn2
  have h3 := (List.nodup_cons.mp hn2).1
  rw [List.getD_eq_getElem _ _ h] at hmem'
  exact h3 hmem'

lemma playersWeight_append (wc : WeightedConfig) (l₁ l₂ : List Player) :
    playersWeight wc (l₁ ++ l₂) = playersWeight wc l₁ + playersWeight wc l₂ := by
  unfold playersWeight
  rw [List.map_append, List.sum_append]

lemma playersWeight_singleton (wc : WeightedConfig) (p : Player) :
    playersWeight wc [p] = wc.weight.getD p.id 0 := by
  simp [playersWeight]

lemma nodup_append_singleton {ids : List Nat} {a : Nat} (h : ids.Nodup)
    (ha : a ∉ ids) : (ids ++ [a]).Nodup := by
  rw [(List.perm_append_singleton a ids).nodup_iff]
  exact List.nodup_cons.mpr ⟨ha, h⟩

lemma randLoop_exit (t : Nat) (rng : Nat → Nat) (fuel : Nat)
    (cands : List (Nat × Nat)) (picked : List Player) (cw k : Nat)
    (hcw : ¬ cw < t) :
    randLoop t rng fuel cands picked cw k = some picked := by
  cases fuel with
  | zero =>
    unfold randLoop
    rw [if_neg hcw]
  | succ fuel' =>
    unfold randLoop
    rw [if_neg hcw]

end WeightedDkg

namespace WeightedDkg

lemma randLoop_step (t : Nat) (rng : Nat → Nat) (fuel' : Nat)
    (cands : List (Nat × Nat)) (picked : List Player) (cw k : Nat)
    (hcw : cw < t) (hne : ¬ cands.length = 0) :
    randLoop t rng (fuel' + 1) cands picked cw k =
      randLoop t rng fuel'
        (if 1 < cands.length then
          swapWithLastAndPop cands (rng k % cands.length) else cands)
        (picked ++ [Player.mk (cands.getD (rng k % cands.length) (0, 0)).1])
        (cw + (cands.getD (rng k % cands.length) (0, 0)).2) (k + 1) := by
  conv_lhs => unfold randLoop
  rw [if_pos hcw, if_neg hne]

lemma randLoop_sound (t : Nat) (wc : WeightedConfig) (rng : Nat → Nat) :
    ∀ fuel cands picked cw k,
      cands.length < fuel →
      (∀ pw ∈ cands, wc.weight.getD pw.1 0 = pw.2) →
      (cands.map Prod.fst).Nodup →
      (∀ pw ∈ cands, pw.1 < wc.weight.length) →
      (picked.map Player.id).Nodup →
      (∀ p ∈ picked, ∀ pw ∈ cands, p.id ≠ pw.1) →
      (∀ p ∈ picked, p.id < wc.weight.length) →
      playersWeight wc picked = cw →
      t ≤ cw + (cands.map Prod.snd).sum →
      ∃ out, randLoop t rng fuel cands picked cw k = some out ∧
        (out.map Player.id).Nodup ∧
        (∀ p ∈ out, p.id < wc.weight.length) ∧
        t ≤ playersWeight wc out ∧
        (cw < t → playersWeight wc out.dropLast < t) ∧
        out.length ≤ picked.length + cands.length := by
  intro fuel
  induction fuel with
  | zero =>
    intro cands picked cw k hfuel
    exact absurd hfuel (by omega)
  | succ fuel' ih =>
    intro cands picked cw k hfuel hpair hnodc hltc hnodp hdisj hltp hpw hsum
    by_cases hcw : cw < t
    · have hne : cands.length ≠ 0 := by
        intro hc
        rw [List.length_eq_zero.mp hc] at hsum
        simp only [List.map_nil, List.sum_nil, Nat.add_zero] at hsum
        omega
      have hpos : 0 < cands.length := Nat.pos_of_ne_zero hne
      have hidxlt : rng k % cands.length < cands.length := Nat.mod_lt _ hpos
      have hmemD : cands.getD (rng k % cands.length) (0, 0) ∈ cands := by
        rw [List.getD_eq_getElem _ _ hidxlt]
        exact List.getElem_mem hidxlt
      have hwD : wc.weight.getD (cands.getD (rng k % cands.length) (0, 0)).1 0 =
          (cands.getD (rng k % cands.length) (0, 0)).2 := hpair _ hmemD
      have hltD : (cands.getD (rng k % cands.length) (0, 0)).1 <
          wc.weight.length := hltc _ hmemD
      have hnotinP : (cands.getD (rng k % cands.length) (0, 0)).1 ∉
          picked.map Player.id := by
        intro hmem
        obtain ⟨p, hp, hpe⟩ := List.mem_map.mp hmem
        exact hdisj p hp _ hmemD hpe
      have hnodp' :
          ((picked ++ [Player.mk (cands.getD (rng k % cands.length) (0, 0)).1]).map
            Player.id).Nodup := by
        rw [List.map_append]
        exact nodup_append_singleton hnodp hnotinP
      have hltp' :
          ∀ p ∈ picked ++ [Player.mk (cands.getD (rng k % cands.length) (0, 0)).1],
            p.id < wc.weight.length := by
        intro p hp
        rcases List.mem_append.mp hp with hp1 | hp1
        · exact hltp p hp1
        · rw [List.mem_singleton] at hp1
          subst hp1
          exact hltD
      have hpw' : playersWeight wc
          (picked ++ [Player.mk (cands.getD (rng k % cands.length) (0, 0)).1]) =
          cw + (cands.getD (rng k % cands.length) (0, 0)).2 := by
        rw [playersWeight_append, playersWeight_singleton, hpw]
        congr 1
      by_cases hlen1 : 1 < cands.length
      · have hfuel' : (swapWithLastAndPop cands (rng k % cands.length)).length
            < fuel' := by
          rw [swapRemove_length _ _ hidxlt]
          omega
        have hpair' : ∀ pw ∈ swapWithLastAndPop cands (rng k % cands.length),
            wc.weight.getD pw.1 0 = pw.2 :=
          fun pw hpw2 => hpair pw (swapRemove_subset _ _ hidxlt pw hpw2)
        have hnodc' := swapRemove_nodup_fst _ _ hidxlt hnodc
        have hltc' : ∀ pw ∈ swapWithLastAndPop cands (rng k % cands.length),
            pw.1 < wc.weight.length :=
          fun pw hpw2 => hltc pw (swapRemove_subset _ _ hidxlt pw hpw2)
        have hdisj' :
            ∀ p ∈ picked ++ [Player.mk (cands.getD (rng k % cands.length) (0, 0)).1],
              ∀ pw ∈ swapWithLastAndPop cands (rng k % cands.length),
                p.id ≠ pw.1 := by
          intro p hp pw hpw2
          rcases List.mem_append.mp hp with hp1 | hp1
          · exact hdisj p hp1 pw (swapRemove_subset _ _ hidxlt pw hpw2)
          · rw [List.mem_singleton] at hp1
            subst hp1
            intro hc
            have hmem2 : pw.1 ∈
                (swapWithLastAndPop cands (rng k % cands.length)).map Prod.fst :=
              List.mem_map.mpr ⟨pw, hpw2, rfl⟩
            rw [← hc] at hmem2
            exact swapRemove_fst_not_mem _ _ hidxlt hnodc hmem2
        have hsum' : t ≤ cw + (cands.getD (rng k % cands.length) (0, 0)).2 +
            ((swapWithLastAndPop cands (rng k % cands.length)).map
              Prod.snd).sum := by
          have h1 := swapRemove_sndSum cands (rng k % cands.length) hidxlt
          omega
        obtain ⟨out, hout, hnodO, hltO, hgeO, hdropO, hlenO⟩ :=
          ih (swapWithLastAndPop cands (rng k % cands.length))
            (picked ++ [Player.mk (cands.getD (rng k % cands.length) (0, 0)).1])
            (cw + (cands.getD (rng k % cands.length) (0, 0)).2) (k + 1)
            hfuel' hpair' hnodc' hltc' hnodp' hdisj' hltp' hpw' hsum'
        refine ⟨out, ?_, hnodO, hltO, hgeO, ?_, ?_⟩
        · rw [randLoop_step t rng fuel' cands picked cw k hcw hne,
            if_pos hlen1]
          exact hout
        · intro _
          by_cases hcw' : cw + (cands.getD (rng k % cands.length) (0, 0)).2 < t
          · exact hdropO hcw'
          · rw [randLoop_exit t rng fuel' _ _ _ _ hcw'] at hout
            injection hout with hout
            rw [← hout, List.dropLast_concat, hpw]
            exact hcw
        · rw [swapRemove_length _ _ hidxlt] at hlenO
          simp only [List.length_append, List.length_cons, List.length_nil]
            at hlenO
          omega
      · have hlen' : cands.length = 1 := by omega
        obtain ⟨c, rfl⟩ := List.length_eq_one.mp hlen'
        have hcmem : c ∈ [c] := List.mem_cons_self c []
        have hidx0 : rng k % [c].length = 0 := Nat.mod_one (rng k)
        have hcw' : ¬ cw + c.2 < t := by
          simp only [List.map_cons, List.map_nil, List.sum_cons, List.sum_nil,
            Nat.add_zero] at hsum
          omega
        refine ⟨picked ++ [Player.mk c.1], ?_, ?_, ?_, ?_, ?_, ?_⟩
        · rw [randLoop_step t rng fuel' [c] picked cw k hcw hne,
            if_neg hlen1, hidx0]
          exact randLoop_exit t rng fuel' [c] _ _ _ hcw'
        · rw [List.map_append]
          refine nodup_append_singleton hnodp ?_
          intro hmem
          obtain ⟨p, hp, hpe⟩ := List.mem_map.mp hmem
          exact hdisj p hp c hcmem hpe
        · intro p hp
          rcases List.mem_append.mp hp with hp1 | hp1
          · exact hltp p hp1
          · rw [List.mem_singleton] at hp1
            subst hp1
            exact hltc c hcmem
        · rw [playersWeight_append, playersWeight_singleton, hpw]
          show t ≤ cw + wc.weight.getD c.1 0
          have h1 : wc.weight.getD c.1 0 = c.2 := hpair c hcmem
          simp only [List.map_cons, List.map_nil, List.sum_cons, List.sum_nil,
            Nat.add_zero] at hsum
          omega
        · intro _
          rw [List.dropLast_concat, hpw]
          exact hcw
        · simp only [List.length_append, List.length_cons, List.length_nil]
          omega
    · refine ⟨picked, randLoop_exit t rng _ cands picked cw k hcw, hnodp,
        hltp, by omega, fun hc => absurd hc hcw, by omega⟩

end WeightedDkg

namespace WeightedDkg

/-! ### Assembled specifications of the three selection operations -/

lemma new_tc_facts {t : Nat} {ws : List Nat} {wc : WeightedConfig}
    (h : WeightedConfig.new t ws = Except.ok wc) :
    0 < wc.tc.t ∧ wc.tc.t ≤ wc.weight.sum ∧
      wc.weight.length = wc.num_players := by
  obtain ⟨htc, hn, hnp, hw, hsi, hmax⟩ := new_ok_eq h
  obtain ⟨-, ht, hnil, hpos, hle⟩ := new_ok h
  refine ⟨by omega, ?_, ?_⟩
  · rw [htc, hw]
    exact hle
  · rw [hw, hnp]

lemma pop_subset_spec {t : Nat} {ws : List Nat} {wc : WeightedConfig}
    (h : WeightedConfig.new t ws = Except.ok wc) (cands : List (Nat × Nat))
    (hsum : wc.tc.t ≤ (cands.map Prod.snd).sum) :
    ∃ m, m ≤ cands.length ∧
      wc.pop_eligible_subset cands =
        some ((cands.reverse.take m).map (fun pw => Player.mk pw.1)) ∧
      1 ≤ m ∧
      wc.tc.t ≤ ((cands.reverse.take m).map Prod.snd).sum ∧
      ((cands.reverse.take (m - 1)).map Prod.snd).sum < wc.tc.t := by
  obtain ⟨h0t, -, -⟩ := new_tc_facts h
  have hsum' : wc.tc.t ≤ 0 + (cands.reverse.map Prod.snd).sum := by
    rw [List.map_reverse, List.sum_reverse]
    omega
  have hfuel : cands.reverse.length < cands.length + 1 := by
    rw [List.length_reverse]
    omega
  obtain ⟨out, hout⟩ :=
    takeLoop_total wc.tc.t (cands.length + 1) cands.reverse [] 0 hsum' hfuel
  obtain ⟨m, hmle, hout2, hsum2, hzero, hbnd⟩ :=
    takeLoop_sound wc.tc.t (cands.length + 1) cands.reverse [] 0 out hout
  obtain ⟨h1m, hlt⟩ := hbnd h0t
  rw [List.length_reverse] at hmle
  refine ⟨m, hmle, ?_, h1m, by simpa using hsum2, by simpa using hlt⟩
  rw [pop_eligible_subset_eq, hout, hout2]
  simp

lemma best_spec {t : Nat} {ws : List Nat} {wc : WeightedConfig}
    (h : WeightedConfig.new t ws = Except.ok wc) (rng : Nat → Nat) :
    ∃ m, m ≤ wc.sort_players_by_weight.length ∧
      wc.get_best_case_eligible_subset_of_players rng =
        some ((wc.sort_players_by_weight.reverse.take m).map
          (fun pw => Player.mk pw.1)) ∧
      1 ≤ m ∧
      wc.tc.t ≤ ((wc.sort_players_by_weight.reverse.take m).map Prod.snd).sum ∧
      ((wc.sort_players_by_weight.reverse.take (m - 1)).map Prod.snd).sum <
        wc.tc.t := by
  obtain ⟨-, hts, -⟩ := new_tc_facts h
  have hsum : wc.tc.t ≤ (wc.sort_players_by_weight.map Prod.snd).sum := by
    rw [sort_sndSum]
    exact hts
  obtain ⟨m, hmle, heq, h1m, hge, hlt⟩ :=
    pop_subset_spec h wc.sort_players_by_weight hsum
  exact ⟨m, hmle, heq, h1m, hge, hlt⟩

lemma worst_spec {t : Nat} {ws : List Nat} {wc : WeightedConfig}
    (h : WeightedConfig.new t ws = Except.ok wc) (rng : Nat → Nat) :
    ∃ m, m ≤ wc.sort_players_by_weight.length ∧
      wc.get_worst_case_eligible_subset_of_players rng =
        some ((wc.sort_players_by_weight.take m).map
          (fun pw => Player.mk pw.1)) ∧
      1 ≤ m ∧
      wc.tc.t ≤ ((wc.sort_players_by_weight.take m).map Prod.snd).sum ∧
      ((wc.sort_players_by_weight.take (m - 1)).map Prod.snd).sum <
        wc.tc.t := by
  obtain ⟨-, hts, -⟩ := new_tc_facts h
  have hsum : wc.tc.t ≤ (wc.sort_players_by_weight.reverse.map Prod.snd).sum := by
    rw [List.map_reverse, List.sum_reverse, sort_sndSum]
    exact hts
  obtain ⟨m, hmle, heq, h1m, hge, hlt⟩ :=
    pop_subset_spec h wc.sort_players_by_weight.reverse hsum
  rw [List.reverse_reverse] at heq hge hlt
  rw [List.length_reverse] at hmle
  exact ⟨m, hmle, heq, h1m, hge, hlt⟩

lemma random_subset_spec {t : Nat} {ws : List Nat} {wc : WeightedConfig}
    (h : WeightedConfig.new t ws = Except.ok wc) (rng : Nat → Nat) :
    ∃ out, wc.get_random_eligible_subset_of_players rng = some out ∧
      (out.map Player.id).Nodup ∧
      (∀ p ∈ out, p.id < wc.num_players) ∧
      wc.tc.t ≤ playersWeight wc out ∧
      playersWeight wc out.dropLast < wc.tc.t ∧
      out.length ≤ wc.num_players := by
  obtain ⟨h0t, hts, hwl⟩ := new_tc_facts h
  have hfuel : wc.weight.enum.length < wc.weight.length + 1 := by
    rw [List.enum_length]
    omega
  have hnodc : (wc.weight.enum.map Prod.fst).Nodup := by
    rw [List.enum_map_fst]
    exact List.nodup_range _
  have hsum : wc.tc.t ≤ 0 + (wc.weight.enum.map Prod.snd).sum := by
    rw [List.enum_map_snd, Nat.zero_add]
    exact hts
  obtain ⟨out, hout, hnod, hlt, hge, hdrop, hlen⟩ :=
    randLoop_sound wc.tc.t wc rng (wc.weight.length + 1) wc.weight.enum [] 0 0
      hfuel (enum_pairing wc.weight) hnodc (enum_fst_lt wc.weight)
      (by simp) (by simp) (by simp) rfl hsum
  refine ⟨out, hout, hnod, ?_, hge, hdrop h0t, ?_⟩
  · intro p hp
    have := hlt p hp
    omega
  · rw [List.enum_length] at hlen
    simp only [List.length_nil, Nat.zero_add] at hlen
    omega

lemma map_dropLast {α β : Type} (f : α → β) (l : List α) :
    (l.map f).dropLast = l.dropLast.map f := by
  rw [List.dropLast_eq_take, List.dropLast_eq_take, List.length_map,
    List.map_take]

lemma sort_take_pairing (wc : WeightedConfig) (m : Nat) :
    ∀ pw ∈ wc.sort_players_by_weight.take m,
      wc.weight.getD pw.1 0 = pw.2 :=
  fun pw hpw => enum_pairing wc.weight pw
    ((sort_mem_iff wc pw).mp ((List.take_sublist m _).subset hpw))

lemma sort_reverse_take_pairing (wc : WeightedConfig) (m : Nat) :
    ∀ pw ∈ wc.sort_players_by_weight.reverse.take m,
      wc.weight.getD pw.1 0 = pw.2 :=
  fun pw hpw => enum_pairing wc.weight pw
    ((sort_mem_iff wc pw).mp (List.mem_reverse.mp
      ((List.take_sublist m _).subset hpw)))

/-- Claim C5: each of the three subset-selection operations returns an ordered
sequence of players whose combined weight reaches `threshold_weight`, and
stops the moment it does: the combined weight of all returned players except
the last-added one is strictly below the threshold. -/
theorem C5_greedy_threshold_boundary {t : Nat} {ws : List Nat}
    {wc : WeightedConfig} (h : WeightedConfig.new t ws = Except.ok wc)
    (rng : Nat → Nat) :
    (∃ l, wc.get_best_case_eligible_subset_of_players rng = some l ∧
      wc.tc.t ≤ playersWeight wc l ∧
      playersWeight wc l.dropLast < wc.tc.t) ∧
    (∃ l, wc.get_worst_case_eligible_subset_of_players rng = some l ∧
      wc.tc.t ≤ playersWeight wc l ∧
      playersWeight wc l.dropLast < wc.tc.t) ∧
    (∃ l, wc.get_random_eligible_subset_of_players rng = some l ∧
      wc.tc.t ≤ playersWeight wc l ∧
      playersWeight wc l.dropLast < wc.tc.t) := by
  refine ⟨?_, ?_, ?_⟩
  · obtain ⟨m, hmle, heq, h1m, hge, hlt⟩ := best_spec h rng
    have hrevlen : m ≤ wc.sort_players_by_weight.reverse.length := by
      rw [List.length_reverse]
      exact hmle
    refine ⟨_, heq, ?_, ?_⟩
    · rw [playersWeight_eq wc _ (sort_reverse_take_pairing wc m)]
      exact hge
    · rw [map_dropLast, dropLast_take _ hrevlen,
        playersWeight_eq wc _ (sort_reverse_take_pairing wc (m - 1))]
      exact hlt
  · obtain ⟨m, hmle, heq, h1m, hge, hlt⟩ := worst_spec h rng
    refine ⟨_, heq, ?_, ?_⟩
    · rw [playersWeight_eq wc _ (sort_take_pairing wc m)]
      exact hge
    · rw [map_dropLast, dropLast_take _ hmle,
        playersWeight_eq wc _ (sort_take_pairing wc (m - 1))]
      exact hlt
  · obtain ⟨out, hout, -, -, hge, hdrop, -⟩ := random_subset_spec h rng
    exact ⟨out, hout, hge, hdrop⟩

/-- Concrete instance of C5 (best-case branch) at `new(5, [2, 4, 3])` with the
all-zero randomness stream. -/
theorem C5_greedy_threshold_boundary_witness :
    ∃ l, wcEx.get_best_case_eligible_subset_of_players (fun _ => 0) = some l ∧
      wcEx.tc.t ≤ playersWeight wcEx l ∧
      playersWeight wcEx l.dropLast < wcEx.tc.t :=
  (C5_greedy_threshold_boundary new_ex
    (fun _ => 0)).1

/-- Claim C8: the best-case and worst-case selections never consume their
randomness source: for any two streams the results are identical, so the
outcome is fully determined by the weight vector and threshold. -/
theorem C8_deterministic_strategies_ignore_randomness (wc : WeightedConfig)
    (rng₁ rng₂ : Nat → Nat) :
    wc.get_best_case_eligible_subset_of_players rng₁ =
      wc.get_best_case_eligible_subset_of_players rng₂ ∧
    wc.get_worst_case_eligible_subset_of_players rng₁ =
      wc.get_worst_case_eligible_subset_of_players rng₂ :=
  ⟨rfl, rfl⟩

/-- Claim C9: the random eligible-subset selection picks players without
replacement: the returned players are pairwise distinct and every returned id
is a real player id in `[0, num_players)` — for every randomness stream. -/
theorem C9_random_subset_no_replacement {t : Nat} {ws : List Nat}
    {wc : WeightedConfig} (h : WeightedConfig.new t ws = Except.ok wc)
    (rng : Nat → Nat) :
    ∃ l, wc.get_random_eligible_subset_of_players rng = some l ∧
      (l.map Player.id).Nodup ∧ ∀ p ∈ l, p.id < wc.num_players := by
  obtain ⟨out, hout, hnod, hlt, -, -, -⟩ := random_subset_spec h rng
  exact ⟨out, hout, hnod, hlt⟩

/-- Concrete instance of C9 at `new(5, [2, 4, 3])` with the all-zero stream. -/
theorem C9_random_subset_no_replacement_witness :
    ∃ l, wcEx.get_random_eligible_subset_of_players (fun _ => 0) = some l ∧
      (l.map Player.id).Nodup ∧ ∀ p ∈ l, p.id < wcEx.num_players :=
  C9_random_subset_no_replacement new_ex
    (fun _ => 0)

/-- Claim C10: on a validly constructed configuration each of the three
selection loops terminates after at most `num_players` iterations and never
draws from an empty candidate list: the result is `some` (the fatal branches —
`pop().unwrap()` on empty and `gen_range(0, 0)` — are never reached) and has
at most `num_players` entries. -/
theorem C10_selection_loops_terminate {t : Nat} {ws : List Nat}
    {wc : WeightedConfig} (h : WeightedConfig.new t ws = Except.ok wc)
    (rng : Nat → Nat) :
    (∃ l, wc.get_best_case_eligible_subset_of_players rng = some l ∧
      l.length ≤ wc.num_players) ∧
    (∃ l, wc.get_worst_case_eligible_subset_of_players rng = some l ∧
      l.length ≤ wc.num_players) ∧
    (∃ l, wc.get_random_eligible_subset_of_players rng = some l ∧
      l.length ≤ wc.num_players) := by
  obtain ⟨-, -, hwl⟩ := new_tc_facts h
  have hsl := sort_length wc
  refine ⟨?_, ?_, ?_⟩
  · obtain ⟨m, hmle, heq, -, -, -⟩ := best_spec h rng
    refine ⟨_, heq, ?_⟩
    rw [List.length_map, List.length_take, List.length_reverse]
    omega
  · obtain ⟨m, hmle, heq, -, -, -⟩ := worst_spec h rng
    refine ⟨_, heq, ?_⟩
    rw [List.length_map, List.length_take]
    omega
  · obtain ⟨out, hout, -, -, -, -, hlen⟩ := random_subset_spec h rng
    exact ⟨out, hout, hlen⟩

/-- Concrete instance of C10 (worst-case branch) at `new(5, [2, 4, 3])`. -/
theorem C10_selection_loops_terminate_witness :
    ∃ l, wcEx.get_worst_case_eligible_subset_of_players (fun _ => 0) = some l ∧
      l.length ≤ wcEx.num_players :=
  (C10_selection_loops_terminate new_ex
    (fun _ => 0)).2.1

end WeightedDkg

namespace WeightedDkg

/-- Claim C7: the best-case selection picks players in descending weight order
and the worst-case selection in ascending weight order, each stopping at the
threshold; consequently the best-case subset never has more players than the
worst-case subset for the same weight vector and threshold. -/
theorem C7_best_card_le_worst_card {t : Nat} {ws : List Nat}
    {wc : WeightedConfig} (h : WeightedConfig.new t ws = Except.ok wc)
    (rng₁ rng₂ : Nat → Nat) :
    ∃ lb lw, wc.get_best_case_eligible_subset_of_players rng₁ = some lb ∧
      wc.get_worst_case_eligible_subset_of_players rng₂ = some lw ∧
      (lb.map (fun p => wc.weight.getD p.id 0)).Sorted (fun a b => b ≤ a) ∧
      (lw.map (fun p => wc.weight.getD p.id 0)).Sorted (fun a b => a ≤ b) ∧
      lb.length ≤ lw.length := by
  obtain ⟨mb, hmble, heqb, h1mb, hgeb, hltb⟩ := best_spec h rng₁
  obtain ⟨mw, hmwle, heqw, h1mw, hgew, hltw⟩ := worst_spec h rng₂
  have hu := sort_sorted wc
  refine ⟨_, _, heqb, heqw, ?_, ?_, ?_⟩
  · rw [weights_map_mk wc _ (sort_reverse_take_pairing wc mb), List.map_take,
      List.map_reverse]
    exact List.Pairwise.sublist (List.take_sublist _ _)
      (List.pairwise_reverse.mpr hu)
  · rw [weights_map_mk wc _ (sort_take_pairing wc mw), List.map_take]
    exact List.Pairwise.sublist (List.take_sublist _ _) hu
  · have hlb : ((wc.sort_players_by_weight.reverse.take mb).map
        (fun pw => Player.mk pw.1)).length = mb := by
      rw [List.length_map, List.length_take, List.length_reverse]
      omega
    have hlw : ((wc.sort_players_by_weight.take mw).map
        (fun pw => Player.mk pw.1)).length = mw := by
      rw [List.length_map, List.length_take]
      omega
    rw [hlb, hlw]
    by_contra hcon
    have hdom := sum_take_reverse_ge hu mw
    rw [← List.map_take] at hdom
    have hmono := sum_take_mono (wc.sort_players_by_weight.map Prod.snd).reverse
      (show mw ≤ mb - 1 by omega)
    rw [List.map_take, List.map_reverse] at hltb
    omega

/-- Concrete instance of C7 at `new(5, [2, 4, 3])`: the best-case subset is
exactly the two players of weights 4 and 3 (ids 1 and 2, size 2). -/
theorem C7_best_card_le_worst_card_witness :
    (∃ lb lw,
      wcEx.get_best_case_eligible_subset_of_players (fun _ => 0) = some lb ∧
      wcEx.get_worst_case_eligible_subset_of_players (fun _ => 0) = some lw ∧
      (lb.map (fun p => wcEx.weight.getD p.id 0)).Sorted (fun a b => b ≤ a) ∧
      (lw.map (fun p => wcEx.weight.getD p.id 0)).Sorted (fun a b => a ≤ b) ∧
      lb.length ≤ lw.length) ∧
    wcEx.get_best_case_eligible_subset_of_players (fun _ => 0) =
      some [⟨1⟩, ⟨2⟩] :=
  ⟨C7_best_card_le_worst_card new_ex
    (fun _ => 0) (fun _ => 0), by decide⟩

end WeightedDkg
